import Mathlib

/-!
Verification of the easy-motion "jump to location by typed label" feature
(crates/easy_motion/src/easy_motion.rs and crates/vim/src/easy_motion.rs).

Keys of the configured alphabet are represented by their index (a natural
number below the alphabet size K); a label is a list of key indices.  Editor
positions, view identifiers and pixel coordinates are represented by natural
numbers.  The modules perm (TrieBuilder, TrimResult), editor_state
(EditorState, Selection) and trie are declared by the sources but their
bodies are not part of the provided tree, so those functions are modelled
from the specification; every such definition is marked in its doc comment.
All control flow that is present in the sources (handle_trim,
handle_trim_multipane, handle_new_matches, observe_keystrokes, the async
completions of show_trie_from_query and process_match_tasks, cancel,
update_overlays, add_overlays) is translated directly from the Rust.
-/

namespace EasyMotion

/-- Modelled from the spec, section 4.2 (the TrieBuilder body lives in the
perm module, which is not in the provided tree).  Splits m candidates into
consecutive chunks of size at most max 1 cap; these are the sizes of the
subtrees headed by the one-key prefixes.  The first argument of the inner
recursion is fuel, always instantiated to m so the recursion is structural. -/
def chunkSizesGo (cap : ℕ) : ℕ → ℕ → List ℕ
  | 0, _ => []
  | _ + 1, 0 => []
  | fuel + 1, m + 1 =>
    min (max 1 cap) (m + 1) :: chunkSizesGo cap fuel (m + 1 - min (max 1 cap) (m + 1))

/-- Chunk m candidates into groups of at most max 1 cap. -/
def chunkSizes (cap m : ℕ) : List ℕ :=
  chunkSizesGo cap m m

/-- Modelled from the spec, section 4.2: each group of sub-labels is put under
one single-key prefix; group i is headed by key index start + i. -/
def prefixGroups (start : ℕ) : List (List (List ℕ)) → List (List ℕ)
  | [] => []
  | g :: rest => g.map (fun lab => start :: lab) ++ prefixGroups (start + 1) rest

/-- Linear search for the least depth d at or above the start value whose
full tree over K keys holds n candidates; fuel-indexed so the recursion is
structural and reduces in the kernel. -/
def minDepthGo (K n : ℕ) : ℕ → ℕ → ℕ
  | 0, d => d
  | fuel + 1, d => if n ≤ K ^ d then d else minDepthGo K n fuel (d + 1)

/-- The least depth d at least 1 with n ≤ K ^ d (the ceiling logarithm for
the inputs reaching it); fuel n suffices since K ^ n reaches n for K at
least 2. -/
def minDepth (K n : ℕ) : ℕ :=
  minDepthGo K n n 1

/-- Capacity of one subtree at the minimizing depth: K to the power d - 1
where d is the least depth whose full tree holds all candidates. -/
def capOf (K n : ℕ) : ℕ :=
  K ^ (minDepth K n - 1)

/-- Modelled from the spec, section 4.2: the number of keys reserved as
immediate single-key leaves when n exceeds K; chosen maximal so that the
remaining candidates fit into the remaining one-key-prefix subtrees of
capacity capOf K n, with any shortfall of slots given to the prefix keys. -/
def leafCount (K n : ℕ) : ℕ :=
  min (K - 1) ((K ^ minDepth K n - n) / (capOf K n - 1))

/-- Modelled from the spec, section 4.2 (greedy shortest-first, breadth-first
capacity filling): fuel-indexed worker, fuel strictly dominates n.  For
n ≤ K the first n single-key labels are used; for an alphabet of size at
most 1 a greedy chain results (a prefix-free code of that size is impossible
there); otherwise leafCount keys become leaves and the rest become prefixes
of recursively built subtrees. -/
def buildLabelsGo (K : ℕ) : ℕ → ℕ → List (List ℕ)
  | 0, _ => []
  | fuel + 1, n =>
    if n ≤ K then (List.range n).map (fun i => [i])
    else if K ≤ 1 then (List.range n).map (fun i => List.replicate (i + 1) 0)
    else
      ((List.range (leafCount K n)).map (fun i => [i])) ++
        prefixGroups (leafCount K n)
          ((chunkSizes (capOf K n) (n - leafCount K n)).map (buildLabelsGo K fuel))

/-- Modelled from the spec, section 4.2: the ordered list of labels the
builder assigns for an alphabet of size K and n candidates, candidate j in
priority order receiving the label at position j. -/
def buildLabels (K n : ℕ) : List (List ℕ) :=
  buildLabelsGo K (n + 1) n

/-- Render a label over a concrete alphabet (used only to state concrete
scenarios in the alphabet's characters). -/
def labelChars (alphabet : List Char) (lab : List ℕ) : List Char :=
  lab.filterMap (fun i => alphabet.get? i)

/-- Two labels are independent when neither is a prefix of the other; a
pairwise independent label list is a prefix-free code with no duplicates. -/
def NoPre (a b : List ℕ) : Prop :=
  ¬ a <+: b ∧ ¬ b <+: a

instance (a b : List ℕ) : Decidable (NoPre a b) := by
  unfold NoPre; infer_instance

/-- One per-candidate overlay datum: the candidate's position and the
identifier of the view that owns it (OverlayState in editor_state; the
display-only HighlightStyle field is not modelled). -/
structure OverlayState where
  point : ℕ
  editorId : ℕ
deriving DecidableEq, Repr

/-- The populate_with step of TrieBuilder (easy_motion.rs lines 819 and 989):
candidate j in priority order is paired with label j of the builder. -/
def populateWith (K : ℕ) (cands : List α) : List (List ℕ × α) :=
  (buildLabels K cands.length).zip cands

/-- A Selection: the remaining (label, candidate) assignment of an active
session; typing narrows the list, so each entry's label is the still-untyped
suffix.  Modelled from the spec, section 4.3 (the Selection body lives in
editor_state, which is not in the provided tree). -/
abbrev Sel : Type :=
  List (List ℕ × OverlayState)

/-- TrimResult as in the perm module: declared by the sources, variants taken
from the match arms of handle_trim (easy_motion.rs lines 715 to 738). -/
inductive TrimResult where
  | Found (o : OverlayState)
  | Changed
  | Err
  | NoChange
deriving DecidableEq, Repr

/-- Modelled from the spec, section 4.3 (record_str of Selection is in
editor_state, not in the provided tree): consuming one key.  If the key
completes a label the candidate is found; otherwise the labels beginning
with the key remain, trimmed by one; if none remain the key was not a valid
continuation. -/
def trimKey (sel : Sel) (k : ℕ) : Sel × TrimResult :=
  match sel.find? (fun e => decide (e.1 = [k])) with
  | some e => (sel, .Found e.2)
  | none =>
    let remaining : Sel := sel.filterMap (fun e =>
      match e.1 with
      | [] => none
      | k' :: rest => if k' = k then some (rest, e.2) else none)
    if remaining.isEmpty then (sel, .Err) else (remaining, .Changed)

/-- Modelled from the spec, section 4.3: a keystroke event either carries one
key of the alphabet (represented by its index) or is non-contributing (for
example an empty string), in which case record_str reports NoChange. -/
def recordInput (sel : Sel) (key : Option ℕ) : Sel × TrimResult :=
  match key with
  | none => (sel, .NoChange)
  | some k => trimKey sel k

/-- Session state per view plus the cross-view slot, as the EditorState enum
declared in editor_state and matched in easy_motion.rs lines 628 to 643
(direction filters and query payloads irrelevant to the claims are reduced
to the collected key list). -/
inductive EditorState where
  | None
  | NCharInput (n : ℕ) (chars : List ℕ)
  | Pattern (chars : List ℕ)
  | PendingSearch
  | Selection (sel : Sel)
deriving DecidableEq

/-- Modelled from the spec, sections 4.4 and 6 (easy_motion_controlled is in
editor_state): every state other than None belongs to an easy-motion
operation. -/
def easyMotionControlled : EditorState → Bool
  | .None => false
  | _ => true

/-- Modelled from the spec, section 6 (keymap_context_layer is in
editor_state): the host's key bindings are shadowed exactly while an
operation is live. -/
def keymapOf : EditorState → Bool
  | .None => false
  | _ => true

/-- One visible editor view: its entity id, the overlays currently shown
(label suffix paired with the overlay datum), whether dimming highlights are
applied, whether the easy-motion keymap context layer is installed, and the
cursor position. -/
structure EditorView where
  id : ℕ
  overlays : List (List ℕ × OverlayState)
  highlighted : Bool
  keymap : Bool
  cursor : ℕ
deriving DecidableEq

/-- Insertion into the per-view session map (editor_states.insert). -/
def alistInsert (k : ℕ) (v : β) (m : List (ℕ × β)) : List (ℕ × β) :=
  (k, v) :: m.filter (fun e => decide (e.1 ≠ k))

/-- Lookup in the per-view session map. -/
def alistLookup (k : ℕ) : List (ℕ × β) → Option β
  | [] => none
  | e :: rest => if e.1 = k then some e.2 else alistLookup k rest

/-- Removal from the per-view session map (editor_states.remove). -/
def alistRemove (k : ℕ) (m : List (ℕ × β)) : List (ℕ × β) :=
  m.filter (fun e => decide (e.1 ≠ k))

/-- The global EasyMotion model state: the per-view session map and the
cross-view (multipane) slot, as in the EasyMotion struct of easy_motion.rs
lines 83 to 91. -/
structure GlobalState where
  editorStates : List (ℕ × EditorState)
  multipane : Option EditorState
deriving DecidableEq

/-- Modelled from the spec, section 4.1 (sort_matches_display and
sort_matches_pixel are in util, not in the provided tree): comparison by
ascending distance from the reference, ties broken by earlier position. -/
def distLe (reference a b : ℕ) : Bool :=
  decide (Nat.dist a reference < Nat.dist b reference ∨
    (Nat.dist a reference = Nat.dist b reference ∧ a ≤ b))

/-- Insert into a list sorted by the boolean comparison le. -/
def insertSorted (le : α → α → Bool) (a : α) : List α → List α
  | [] => [a]
  | b :: rest => if le a b then a :: b :: rest else b :: insertSorted le a rest

/-- Insertion sort by the boolean comparison le. -/
def sortBy (le : α → α → Bool) : List α → List α
  | [] => []
  | a :: rest => insertSorted le a (sortBy le rest)

/-- Modelled from the spec, section 4.1, single-view document-order mode. -/
def sortMatchesDisplay (ms : List ℕ) (cursor : ℕ) : List ℕ :=
  sortBy (distLe cursor) ms

/-- Modelled from the spec, section 4.1, multi-view pixel-distance mode: a
raw match is (document position, owning view id, on-screen pixel position). -/
def sortMatchesPixel (ms : List (ℕ × ℕ × ℕ)) (cursorPx : ℕ) :
    List (ℕ × ℕ × ℕ) :=
  sortBy (fun a b => distLe cursorPx a.2.2 b.2.2) ms

/-- Clearing one view on teardown: clear_overlays, clear_highlights and
remove_keymap_context_layer as called together in easy_motion.rs lines
720 to 722, 731 to 734 and 764 to 768. -/
def clearView (ed : EditorView) : EditorView :=
  { ed with overlays := [], highlighted := false, keymap := false }

/-- Translation of handle_trim (easy_motion.rs lines 708 to 739): consume one
keystroke of an active single-view session. -/
def handleTrim (sel : Sel) (key : Option ℕ) (ed : EditorView) :
    EditorState × EditorView :=
  match recordInput sel key with
  | (sel', res) =>
    match res with
    | .Found o => (.None, { clearView ed with cursor := o.point })
    | .Changed => (.Selection sel', { ed with overlays := sel' })
    | .Err => (.None, clearView ed)
    | .NoChange => (.Selection sel', ed)

/-- Translation of handle_trim_multipane (easy_motion.rs lines 741 to 797):
consume one keystroke of an active cross-view session; eds are the active
editor views of the workspace and focus is the id of the focused view. -/
def handleTrimMultipane (sel : Sel) (key : Option ℕ) (eds : List EditorView)
    (focus : ℕ) : EditorState × List EditorView × ℕ :=
  match recordInput sel key with
  | (sel', res) =>
    match res with
    | .Found o =>
      if (eds.find? (fun ed => decide (ed.id = o.editorId))).isSome then
        (.None,
         eds.map (fun ed =>
           if ed.id = o.editorId then { clearView ed with cursor := o.point }
           else clearView ed),
         o.editorId)
      else (.None, eds, focus)
    | .Changed =>
      (.Selection sel',
       eds.map (fun ed =>
         { ed with overlays := sel'.filter (fun e => decide (e.2.editorId = ed.id)) }),
       focus)
    | .Err => (.None, eds.map clearView, focus)
    | .NoChange => (.Selection sel', eds, focus)

/-- Translation of handle_new_matches (easy_motion.rs lines 799 to 852): an
empty match list yields None untouched; otherwise the matches are sorted by
distance from the cursor, labelled by the trie builder, the overlays are
added, and a dimming highlight is applied when dimming is configured. -/
def handleNewMatches (K : ℕ) (dimming : Bool) (ms : List ℕ)
    (ed : EditorView) : EditorState × EditorView :=
  if ms.isEmpty then (.None, ed)
  else
    let sorted := sortMatchesDisplay ms ed.cursor
    let trie := populateWith K (sorted.map (fun p => OverlayState.mk p ed.id))
    (.Selection trie,
     { ed with
        overlays := ed.overlays ++ trie,
        highlighted := if dimming then true else ed.highlighted })

/-- Translation of the async completion of show_trie_from_query
(easy_motion.rs lines 866 to 891): once the search task resolves, the result
is applied and the per-view state slot is overwritten unconditionally; the
prior content of the slot is neither read nor compared. -/
def showTrieCompletion (K : ℕ) (dimming : Bool) (ms : List ℕ)
    (edId : ℕ) (g : GlobalState) (ed : EditorView) :
    GlobalState × EditorView :=
  match handleNewMatches K dimming ms ed with
  | (st, ed') =>
    ({ g with editorStates := alistInsert edId st g.editorStates },
     { ed' with keymap := keymapOf st })

/-- Translation of update_editors (easy_motion.rs lines 1013 to 1075) for the
states reachable from the async multipane completion: the None branch clears
highlights and the keymap layer (overlays are not cleared there), the
Selection branch installs the keymap layer, adds each view its own overlay
subset and applies dimming. -/
def updateEditorsState (st : EditorState) (dimming : Bool)
    (eds : List EditorView) : List EditorView :=
  match st with
  | .None => eds.map (fun ed => { ed with highlighted := false, keymap := false })
  | .Selection sel =>
    eds.map (fun ed =>
      { ed with
         keymap := true,
         overlays := ed.overlays ++ sel.filter (fun e => decide (e.2.editorId = ed.id)),
         highlighted := if dimming then true else ed.highlighted })
  | .NCharInput _ _ | .Pattern _ =>
    eds.map (fun ed => { ed with highlighted := false, keymap := true })
  | .PendingSearch => eds

/-- Translation of the async completion of process_match_tasks
(easy_motion.rs lines 957 to 1010): the joined per-view results are
flattened and pixel-sorted; with zero matches the views are reset through
update_editors but the multipane slot is left untouched; otherwise a shared
trie is built and stored in the multipane slot unconditionally. -/
def processMatchCompletion (K : ℕ) (dimming : Bool)
    (searchMatches : List (ℕ × ℕ × ℕ)) (cursorPx : ℕ)
    (g : GlobalState) (eds : List EditorView) :
    GlobalState × List EditorView :=
  let sorted := sortMatchesPixel searchMatches cursorPx
  if sorted.length = 0 then
    (g, updateEditorsState .None dimming eds)
  else
    let trie := populateWith K
      (sorted.map (fun m => OverlayState.mk m.1 m.2.1))
    let st : EditorState := .Selection trie
    ({ g with multipane := some st }, updateEditorsState st dimming eds)

/-- A keystroke event as observed: whether it already resolved to an action,
and the decoded key if any. -/
structure KeyEvent where
  hasAction : Bool
  key : Option ℕ
deriving DecidableEq

/-- Translation of the per-state match of observe_keystrokes_impl
(easy_motion.rs lines 628 to 643) for one single view: NChar input records
the key and flips to PendingSearch when the count is reached (the spawned
search of show_trie_from_query is the PendingSearch result there), Pattern
keeps collecting, Selection trims, the rest are unchanged. -/
def stepSingle (st : EditorState) (key : Option ℕ) (ed : EditorView) :
    EditorState × EditorView :=
  match st with
  | .None => (.None, ed)
  | .PendingSearch => (.PendingSearch, ed)
  | .Pattern chars => (.Pattern (chars ++ key.toList), ed)
  | .NCharInput n chars =>
    match key with
    | none => (.NCharInput n chars, ed)
    | some k =>
      if n ≤ (chars ++ [k]).length then (.PendingSearch, ed)
      else (.NCharInput n (chars ++ [k]), ed)
  | .Selection sel => handleTrim sel key ed

/-- Translation of observe_keystrokes_impl_multipane (easy_motion.rs lines
651 to 706): same state dispatch against the cross-view state, touching the
whole view list; the per-view session map is never consulted. -/
def stepMultipane (st : EditorState) (key : Option ℕ)
    (eds : List EditorView) (focus : ℕ) :
    EditorState × List EditorView × ℕ :=
  match st with
  | .None => (.None, eds, focus)
  | .PendingSearch => (.PendingSearch, eds, focus)
  | .Pattern chars => (.Pattern (chars ++ key.toList), eds, focus)
  | .NCharInput n chars =>
    match key with
    | none => (.NCharInput n chars, eds, focus)
    | some k =>
      if n ≤ (chars ++ [k]).length then (.PendingSearch, eds, focus)
      else (.NCharInput n (chars ++ [k]), eds, focus)
  | .Selection sel => handleTrimMultipane sel key eds focus

/-- The whole observed world: global easy-motion state, the visible views
and the focused view id. -/
structure World where
  global : GlobalState
  views : List EditorView
  focus : ℕ
deriving DecidableEq

/-- Replace the view with the given id. -/
def updateViewById (eds : List EditorView) (i : ℕ) (ed' : EditorView) :
    List EditorView :=
  eds.map (fun ed => if ed.id = i then ed' else ed)

/-- Translation of observe_keystrokes (easy_motion.rs lines 593 to 605)
together with the guards of observe_keystrokes_impl and
observe_keystrokes_impl_multipane: an event that resolved to an action or
arrives with pending keystrokes returns early; otherwise, when the multipane
slot is occupied its state alone is taken and stepped (an uncontrolled taken
state is dropped); only with the slot empty is the active view's own state
taken (mem take leaves None behind) and stepped. -/
def observeKeystrokes (ev : KeyEvent) (hasPending : Bool) (activeId : ℕ)
    (w : World) : World :=
  if ev.hasAction then w
  else if hasPending then w
  else
    match w.global.multipane with
    | some st =>
      if easyMotionControlled st then
        match stepMultipane st ev.key w.views w.focus with
        | (st', eds', focus') =>
          { global := { w.global with multipane := some st' },
            views := eds', focus := focus' }
      else { w with global := { w.global with multipane := none } }
    | none =>
      match w.views.find? (fun ed => decide (ed.id = activeId)) with
      | none => w
      | some ed =>
        let st := (alistLookup activeId w.global.editorStates).getD .None
        if easyMotionControlled st then
          match stepSingle st ev.key ed with
          | (st', ed') =>
            { global := { w.global with
                editorStates := alistInsert activeId st' w.global.editorStates },
              views := updateViewById w.views activeId ed',
              focus := w.focus }
        else
          { w with global := { w.global with
              editorStates := alistInsert activeId .None w.global.editorStates } }

end EasyMotion

namespace VimEasyMotion

open EasyMotion

/-- An editor view of the vim front-end: overlay texts with their positions,
the dimming highlight, the keymap layer, the cursor, and the set of folded
positions of the display snapshot. -/
structure VimEditor where
  overlays : List (List ℕ × ℕ)
  highlighted : Bool
  keymap : Bool
  cursor : ℕ
  folded : List ℕ
deriving DecidableEq

/-- Translation of add_overlays (vim/src/easy_motion.rs lines 417 to 448):
each trie entry whose target position is folded is omitted; the rest become
overlays at their positions (offset to display-point conversion is the
identity here). -/
def vimAddOverlays (entries : Sel) (folded : List ℕ) : List (List ℕ × ℕ) :=
  entries.filterMap (fun e =>
    if e.2.point ∈ folded then none else some (e.1, e.2.point))

/-- Translation of clear_editor (vim/src/easy_motion.rs lines 286 to 293). -/
def vimClearEditor (ed : VimEditor) : VimEditor :=
  { ed with overlays := [], highlighted := false, keymap := false }

/-- Translation of handle_trim (vim/src/easy_motion.rs lines 374 to 415);
the vim state map stores plain selections, so the result state is optional
(none for teardown). -/
def vimHandleTrim (sel : Sel) (key : Option ℕ) (ed : VimEditor) :
    Option Sel × VimEditor :=
  match recordInput sel key with
  | (sel', res) =>
    match res with
    | .Found o => (none, { vimClearEditor ed with cursor := o.point })
    | .Changed =>
      (some sel', { ed with overlays := vimAddOverlays sel' ed.folded })
    | .Err => (none, vimClearEditor ed)
    | .NoChange => (some sel', ed)

/-- Translation of observe_keystrokes (vim/src/easy_motion.rs lines 344 to
372): early return on a resolved action or pending keystrokes; otherwise the
view's state is removed, trimmed, and re-inserted unless torn down. -/
def vimObserveKeystrokes (ev : KeyEvent) (hasPending : Bool) (edId : ℕ)
    (states : List (ℕ × Sel)) (ed : VimEditor) :
    List (ℕ × Sel) × VimEditor :=
  if ev.hasAction then (states, ed)
  else if hasPending then (states, ed)
  else
    match alistLookup edId states with
    | none => (states, ed)
    | some st =>
      let states' := alistRemove edId states
      match vimHandleTrim st ev.key ed with
      | (none, ed') => (states', ed')
      | (some st', ed') => (alistInsert edId st' states', ed')

/-- Editor events relevant to update_overlays. -/
inductive VimEvent where
  | Fold
  | UnFold
  | Other
deriving DecidableEq

/-- Translation of update_overlays (vim/src/easy_motion.rs lines 450 to 477):
on a fold or unfold event of a view with a live session, the session state
is taken, the overlays rebuilt from its trie against the current fold map,
and the very same state put back. -/
def vimUpdateOverlays (event : VimEvent) (edId : ℕ)
    (states : List (ℕ × Sel)) (ed : VimEditor) :
    List (ℕ × Sel) × VimEditor :=
  if event = .Fold ∨ event = .UnFold then
    match alistLookup edId states with
    | none => (states, ed)
    | some st =>
      let states' := alistRemove edId states
      let ed' := { ed with overlays := vimAddOverlays st ed.folded }
      (alistInsert edId st states', ed')
  else (states, ed)

end VimEasyMotion

namespace EasyMotion

/-- The chunk sizes of m candidates add up to m. -/
lemma chunkSizesGo_sum (cap : ℕ) :
    ∀ fuel m, m ≤ fuel → (chunkSizesGo cap fuel m).sum = m := by
  intro fuel
  induction fuel with
  | zero =>
    intro m hm
    interval_cases m
    simp [chunkSizesGo]
  | succ f ih =>
    intro m hm
    match m with
    | 0 => simp [chunkSizesGo]
    | m + 1 =>
      have ht : min (max 1 cap) (m + 1) ≤ m + 1 := Nat.min_le_right _ _
      have ht1 : 1 ≤ min (max 1 cap) (m + 1) :=
        le_min (le_max_left 1 cap) (Nat.succ_le_succ (Nat.zero_le m))
      have hrec : m + 1 - min (max 1 cap) (m + 1) ≤ f := by omega
      simp only [chunkSizesGo, List.sum_cons, ih _ hrec]
      omega

/-- Every chunk size is at most max 1 cap. -/
lemma chunkSizesGo_mem_le (cap : ℕ) :
    ∀ fuel m s, s ∈ chunkSizesGo cap fuel m → s ≤ max 1 cap := by
  intro fuel
  induction fuel with
  | zero =>
    intro m s hs
    simp [chunkSizesGo] at hs
  | succ f ih =>
    intro m s hs
    match m with
    | 0 => simp [chunkSizesGo] at hs
    | m + 1 =>
      simp only [chunkSizesGo, List.mem_cons] at hs
      rcases hs with h | h
      · subst h; exact Nat.min_le_left _ _
      · exact ih _ _ h

/-- With positive capacity, m candidates fitting into p subtrees of size cap
produce at most p chunks. -/
lemma chunkSizesGo_length_le (cap : ℕ) (hcap : 1 ≤ cap) :
    ∀ fuel m p, m ≤ fuel → m ≤ p * cap → (chunkSizesGo cap fuel m).length ≤ p := by
  intro fuel
  induction fuel with
  | zero =>
    intro m p hm _
    interval_cases m
    simp [chunkSizesGo]
  | succ f ih =>
    intro m p hm hfit
    match m with
    | 0 => simp [chunkSizesGo]
    | m + 1 =>
      have hmax : max 1 cap = cap := max_eq_right hcap
      match p with
      | 0 => omega
      | p + 1 =>
        have ht : min (max 1 cap) (m + 1) ≤ m + 1 := Nat.min_le_right _ _
        have ht1 : 1 ≤ min (max 1 cap) (m + 1) :=
          le_min (le_max_left 1 cap) (Nat.succ_le_succ (Nat.zero_le m))
        have hrec : m + 1 - min (max 1 cap) (m + 1) ≤ f := by omega
        have hfit' : m + 1 - min (max 1 cap) (m + 1) ≤ p * cap := by
          rcases le_or_lt (m + 1) cap with hle | hlt
          · have : min (max 1 cap) (m + 1) = m + 1 := by
              rw [hmax]; exact min_eq_right hle
            omega
          · have : min (max 1 cap) (m + 1) = cap := by
              rw [hmax]; exact min_eq_left (le_of_lt hlt)
            rw [this]
            have : (p + 1) * cap = p * cap + cap := by ring
            omega
        simp only [chunkSizesGo, List.length_cons]
        exact Nat.succ_le_succ (ih _ _ hrec hfit')

/-- The linear depth search returns the first depth at or past the start
that fits all n candidates, provided some depth within fuel steps fits. -/
lemma minDepthGo_spec {K n : ℕ} :
    ∀ fuel d, K ^ (d - 1) < n → n ≤ K ^ (d + fuel) →
      n ≤ K ^ minDepthGo K n fuel d ∧
      K ^ (minDepthGo K n fuel d - 1) < n ∧
      d ≤ minDepthGo K n fuel d := by
  intro fuel
  induction fuel with
  | zero =>
    intro d hlow hhigh
    simpa [minDepthGo] using ⟨hhigh, hlow⟩
  | succ f ih =>
    intro d hlow hhigh
    by_cases hd : n ≤ K ^ d
    · simp only [minDepthGo, if_pos hd]
      exact ⟨hd, hlow, le_refl d⟩
    · simp only [minDepthGo, if_neg hd]
      have hlow' : K ^ ((d + 1) - 1) < n := by
        simpa using Nat.lt_of_not_le hd
      have hhigh' : n ≤ K ^ (d + 1 + f) := by
        have : d + 1 + f = d + (f + 1) := by omega
        rw [this]; exact hhigh
      obtain ⟨h1, h2, h3⟩ := ih (d + 1) hlow' hhigh'
      exact ⟨h1, h2, by omega⟩

/-- For 2 ≤ K < n the chosen depth fits all candidates, is tight, and is at
least 2. -/
lemma minDepth_spec {K n : ℕ} (hK : 2 ≤ K) (hn : K < n) :
    n ≤ K ^ minDepth K n ∧ K ^ (minDepth K n - 1) < n ∧ 2 ≤ minDepth K n := by
  have hlow : K ^ (1 - 1) < n := by
    simp only [Nat.sub_self, pow_zero]
    omega
  have hhigh : n ≤ K ^ (1 + n) := by
    calc n ≤ 2 ^ n := le_of_lt (Nat.lt_two_pow n)
    _ ≤ K ^ n := Nat.pow_le_pow_left hK n
    _ ≤ K ^ (1 + n) := Nat.pow_le_pow_right (by omega) (by omega)
  obtain ⟨h1, h2, _⟩ := minDepthGo_spec n 1 hlow hhigh
  refine ⟨h1, h2, ?_⟩
  by_contra hcon
  have hle : minDepth K n ≤ 1 := by omega
  have : n ≤ K ^ (1 : ℕ) :=
    le_trans h1 (Nat.pow_le_pow_right (by omega) hle)
  simp at this
  omega

/-- The subtree capacity is at least K. -/
lemma capOf_ge {K n : ℕ} (hK : 2 ≤ K) (hn : K < n) : K ≤ capOf K n := by
  obtain ⟨_, _, hd⟩ := minDepth_spec hK hn
  have : K ^ (1 : ℕ) ≤ K ^ (minDepth K n - 1) :=
    Nat.pow_le_pow_right (by omega) (by omega)
  simpa [capOf] using this

/-- The subtree capacity is below the candidate count (the depth is tight). -/
lemma capOf_lt {K n : ℕ} (hK : 2 ≤ K) (hn : K < n) : capOf K n < n := by
  obtain ⟨_, h2, _⟩ := minDepth_spec hK hn
  simpa [capOf] using h2

/-- The number of leaves is below the alphabet size. -/
lemma leafCount_lt {K n : ℕ} (hK : 2 ≤ K) : leafCount K n < K := by
  have : leafCount K n ≤ K - 1 := Nat.min_le_left _ _
  omega

/-- Arithmetic core of the leaf split: if l of K keys are leaves and the
capacity bound of leafCount holds, the rest of the candidates fit under the
K - l prefix keys. -/
lemma leaf_split_arith (K a l n P : ℕ) (hl : l < K) (hnP : n ≤ P)
    (hml : l * (a - 1) ≤ P - n) (hPa : P = a * K) (ha : 1 ≤ a) :
    n - l ≤ (K - l) * a := by
  have h1 : l * a = l * (a - 1) + l := by
    calc l * a = l * ((a - 1) + 1) := by congr 1; omega
    _ = l * (a - 1) + l := by rw [Nat.mul_add, Nat.mul_one]
  have h2 : a * K = l * a + (K - l) * a := by
    have hsplit : K = l + (K - l) := by omega
    calc a * K = a * (l + (K - l)) := by rw [← hsplit]
    _ = l * a + (K - l) * a := by ring
  omega

/-- The candidates left after reserving the leaves fit into the remaining
prefix-key subtrees at capacity capOf K n. -/
lemma chunks_fit {K n : ℕ} (hK : 2 ≤ K) (hn : K < n) :
    n - leafCount K n ≤ (K - leafCount K n) * capOf K n := by
  obtain ⟨hfit, _, hd2⟩ := minDepth_spec hK hn
  have hcapK : K ≤ capOf K n := capOf_ge hK hn
  have hl : leafCount K n ≤ (K ^ minDepth K n - n) / (capOf K n - 1) :=
    Nat.min_le_right _ _
  have hmul : leafCount K n * (capOf K n - 1) ≤ K ^ minDepth K n - n :=
    (Nat.le_div_iff_mul_le (by omega)).mp hl
  have hpow : K ^ minDepth K n = capOf K n * K := by
    calc K ^ minDepth K n = K ^ (minDepth K n - 1 + 1) := by
          congr 1; omega
    _ = K ^ (minDepth K n - 1) * K := pow_succ K _
    _ = capOf K n * K := by rw [capOf]
  exact leaf_split_arith K (capOf K n) (leafCount K n) n (K ^ minDepth K n)
    (leafCount_lt hK) hfit hmul hpow (by omega)

end EasyMotion

namespace EasyMotion

/-- Length of a prefix-group concatenation: the sum of group sizes. -/
lemma prefixGroups_length :
    ∀ (s : ℕ) (gs : List (List (List ℕ))),
      (prefixGroups s gs).length = (gs.map List.length).sum := by
  intro s gs
  induction gs generalizing s with
  | nil => simp [prefixGroups]
  | cons g rest ih =>
    simp [prefixGroups, ih (s + 1)]

/-- Every label of a prefix-group concatenation is a head key in the range
of the groups followed by a member of one of the groups. -/
lemma mem_prefixGroups {lab : List ℕ} :
    ∀ {s : ℕ} {gs : List (List (List ℕ))}, lab ∈ prefixGroups s gs →
      ∃ k t g, lab = k :: t ∧ s ≤ k ∧ k < s + gs.length ∧ g ∈ gs ∧ t ∈ g := by
  intro s gs
  induction gs generalizing s with
  | nil => intro h; simp [prefixGroups] at h
  | cons g rest ih =>
    intro h
    rw [prefixGroups, List.mem_append] at h
    rcases h with h | h
    · obtain ⟨t, ht, rfl⟩ := List.mem_map.mp h
      exact ⟨s, t, g, rfl, le_refl s, by simp, List.mem_cons_self g rest, ht⟩
    · obtain ⟨k, t, g', rfl, hk1, hk2, hg', ht⟩ := ih h
      exact ⟨k, t, g', rfl, by omega, by simp; omega,
        List.mem_cons_of_mem g hg', ht⟩

/-- Labels with different head keys never prefix one another. -/
lemma noPre_cons_of_ne {a b : ℕ} (h : a ≠ b) (l1 l2 : List ℕ) :
    NoPre (a :: l1) (b :: l2) := by
  constructor
  · intro hpre
    exact h (List.cons_prefix_cons.mp hpre).1
  · intro hpre
    exact h ((List.cons_prefix_cons.mp hpre).1).symm

/-- Prefixing both labels with the same key preserves independence. -/
lemma noPre_cons {a : ℕ} {l1 l2 : List ℕ} (h : NoPre l1 l2) :
    NoPre (a :: l1) (a :: l2) := by
  constructor
  · intro hpre
    exact h.1 (List.cons_prefix_cons.mp hpre).2
  · intro hpre
    exact h.2 (List.cons_prefix_cons.mp hpre).2

/-- A prefix-group concatenation of internally prefix-free groups is
prefix-free: distinct groups get distinct head keys. -/
lemma prefixGroups_pairwise :
    ∀ (s : ℕ) (gs : List (List (List ℕ))),
      (∀ g ∈ gs, g.Pairwise NoPre) → (prefixGroups s gs).Pairwise NoPre := by
  intro s gs
  induction gs generalizing s with
  | nil => intro _; simp [prefixGroups]
  | cons g rest ih =>
    intro h
    rw [prefixGroups, List.pairwise_append]
    refine ⟨?_, ih (s + 1) (fun g' hg' => h g' (List.mem_cons_of_mem g hg')), ?_⟩
    · rw [List.pairwise_map]
      exact (h g (List.mem_cons_self g rest)).imp noPre_cons
    · intro a ha b hb
      obtain ⟨t, _, rfl⟩ := List.mem_map.mp ha
      obtain ⟨k, t', g', rfl, hk1, _, _, _⟩ := mem_prefixGroups hb
      exact noPre_cons_of_ne (by omega) t t'

/-- Single-key labels over distinct keys are pairwise independent. -/
lemma range_singletons_pairwise (n : ℕ) :
    ((List.range n).map (fun i => [i])).Pairwise NoPre := by
  rw [List.pairwise_map]
  exact (List.pairwise_lt_range n).imp
    (fun hlt => noPre_cons_of_ne (by omega) [] [])

end EasyMotion

namespace EasyMotion

/-- Bundled facts about the chunk list used by the recursive case of the
builder: every chunk is smaller than n, there are at most as many chunks as
prefix keys, and the chunks cover all remaining candidates. -/
lemma chunk_facts {K n : ℕ} (hK : 2 ≤ K) (hn : K < n) :
    (∀ s ∈ chunkSizes (capOf K n) (n - leafCount K n), s < n) ∧
    (chunkSizes (capOf K n) (n - leafCount K n)).length ≤ K - leafCount K n ∧
    (chunkSizes (capOf K n) (n - leafCount K n)).sum = n - leafCount K n := by
  have hcapK : K ≤ capOf K n := capOf_ge hK hn
  have hcaplt : capOf K n < n := capOf_lt hK hn
  have hmax : max 1 (capOf K n) = capOf K n := max_eq_right (by omega)
  refine ⟨?_, ?_, ?_⟩
  · intro s hs
    have := chunkSizesGo_mem_le (capOf K n) _ _ s hs
    omega
  · exact chunkSizesGo_length_le (capOf K n) (by omega) _ _ _
      (le_refl _) (chunks_fit hK hn)
  · exact chunkSizesGo_sum (capOf K n) _ _ (le_refl _)

/-- The builder yields exactly n labels. -/
lemma buildLabelsGo_length {K : ℕ} (hK : 2 ≤ K) :
    ∀ fuel n, n < fuel → (buildLabelsGo K fuel n).length = n := by
  intro fuel
  induction fuel with
  | zero => intro n hn; omega
  | succ f ih =>
    intro n hn
    by_cases h1 : n ≤ K
    · simp [buildLabelsGo, h1]
    · have hKn : K < n := by omega
      obtain ⟨hmem, _, hsum⟩ := chunk_facts hK hKn
      have h2 : ¬ K ≤ 1 := by omega
      have hlab : ((chunkSizes (capOf K n) (n - leafCount K n)).map
          (buildLabelsGo K f)).map List.length =
          chunkSizes (capOf K n) (n - leafCount K n) := by
        rw [List.map_map]
        have hpt : ∀ s ∈ chunkSizes (capOf K n) (n - leafCount K n),
            (List.length ∘ buildLabelsGo K f) s = id s := by
          intro s hs
          exact ih s (by have := hmem s hs; omega)
        rw [List.map_congr_left hpt, List.map_id]
      have hleaf : leafCount K n < K := leafCount_lt hK
      simp only [buildLabelsGo, if_neg h1, if_neg h2, List.length_append,
        List.length_map, List.length_range, prefixGroups_length, hlab, hsum]
      omega

/-- Every label of the builder is non-empty and uses only key indices below
the alphabet size. -/
lemma buildLabelsGo_sound {K : ℕ} (hK : 2 ≤ K) :
    ∀ fuel n, n < fuel → ∀ lab ∈ buildLabelsGo K fuel n,
      lab ≠ [] ∧ ∀ c ∈ lab, c < K := by
  intro fuel
  induction fuel with
  | zero => intro n hn; omega
  | succ f ih =>
    intro n hn lab hlab
    by_cases h1 : n ≤ K
    · simp only [buildLabelsGo, if_pos h1, List.mem_map, List.mem_range] at hlab
      obtain ⟨i, hi, rfl⟩ := hlab
      refine ⟨by simp, ?_⟩
      intro c hc
      simp at hc
      omega
    · have hKn : K < n := by omega
      obtain ⟨hmem, hcnt, _⟩ := chunk_facts hK hKn
      have h2 : ¬ K ≤ 1 := by omega
      simp only [buildLabelsGo, if_neg h1, if_neg h2, List.mem_append] at hlab
      rcases hlab with h | h
      · simp only [List.mem_map, List.mem_range] at h
        obtain ⟨i, hi, rfl⟩ := h
        have : leafCount K n < K := leafCount_lt hK
        refine ⟨by simp, ?_⟩
        intro c hc
        simp at hc
        omega
      · obtain ⟨k, t, g, rfl, hk1, hk2, hg, ht⟩ := mem_prefixGroups h
        rw [List.length_map] at hk2
        obtain ⟨s, hs, rfl⟩ := List.mem_map.mp hg
        obtain ⟨_, htK⟩ := ih s (by have := hmem s hs; omega) t ht
        refine ⟨by simp, ?_⟩
        intro c hc
        rcases List.mem_cons.mp hc with rfl | hc
        · omega
        · exact htK c hc

/-- The labels of the builder form a prefix-free set without duplicates. -/
lemma buildLabelsGo_pairwise {K : ℕ} (hK : 2 ≤ K) :
    ∀ fuel n, n < fuel → (buildLabelsGo K fuel n).Pairwise NoPre := by
  intro fuel
  induction fuel with
  | zero => intro n hn; omega
  | succ f ih =>
    intro n hn
    by_cases h1 : n ≤ K
    · simp only [buildLabelsGo, if_pos h1]
      exact range_singletons_pairwise n
    · have hKn : K < n := by omega
      obtain ⟨hmem, _, _⟩ := chunk_facts hK hKn
      have h2 : ¬ K ≤ 1 := by omega
      simp only [buildLabelsGo, if_neg h1, if_neg h2]
      rw [List.pairwise_append]
      refine ⟨range_singletons_pairwise _, ?_, ?_⟩
      · refine prefixGroups_pairwise _ _ (fun g hg => ?_)
        obtain ⟨s, hs, rfl⟩ := List.mem_map.mp hg
        exact ih s (by have := hmem s hs; omega)
      · intro a ha b hb
        simp only [List.mem_map, List.mem_range] at ha
        obtain ⟨i, hi, rfl⟩ := ha
        obtain ⟨k, t, g, rfl, hk1, _, _, _⟩ := mem_prefixGroups hb
        exact noPre_cons_of_ne (by omega) [] t

/-- Packaged builder correctness at the standard fuel. -/
lemma buildLabels_length {K : ℕ} (hK : 2 ≤ K) (n : ℕ) :
    (buildLabels K n).length = n :=
  buildLabelsGo_length hK (n + 1) n (by omega)

/-- Soundness of the builder at the standard fuel. -/
lemma buildLabels_sound {K : ℕ} (hK : 2 ≤ K) (n : ℕ) :
    ∀ lab ∈ buildLabels K n, lab ≠ [] ∧ ∀ c ∈ lab, c < K :=
  buildLabelsGo_sound hK (n + 1) n (by omega)

/-- Prefix-freeness of the builder at the standard fuel. -/
lemma buildLabels_pairwise {K : ℕ} (hK : 2 ≤ K) (n : ℕ) :
    (buildLabels K n).Pairwise NoPre :=
  buildLabelsGo_pairwise hK (n + 1) n (by omega)

end EasyMotion

namespace EasyMotion

/-- Consuming an actual key never reports NoChange: only a non-contributing
event does. -/
lemma trimKey_snd_ne (sel : Sel) (k : ℕ) :
    (trimKey sel k).2 ≠ TrimResult.NoChange := by
  unfold trimKey
  cases h : sel.find? (fun e => decide (e.1 = [k])) with
  | some e => simp
  | none =>
    simp only []
    split
    · simp
    · simp

/-- Inversion for a NoChange outcome: the event carried no key and the
selection is returned unchanged. -/
lemma recordInput_noChange {sel sel' : Sel} {key : Option ℕ}
    (h : recordInput sel key = (sel', TrimResult.NoChange)) :
    key = none ∧ sel' = sel := by
  cases key with
  | none =>
    refine ⟨rfl, ?_⟩
    simp only [recordInput] at h
    exact (Prod.mk.injEq _ _ _ _ ▸ h).1.symm
  | some k =>
    exfalso
    apply trimKey_snd_ne sel k
    simp only [recordInput] at h
    rw [h]

end EasyMotion

namespace EasyMotion

/-- Claim C2 as frozen is false at alphabet size K = 1 with N = 2
candidates: the builder does hand out one label per candidate, but the label
set cannot be and is not prefix-free (the first label is a proper prefix of
the second), so the conjunction claimed for every K at least 1 fails here. -/
theorem C2_counterexample :
    (populateWith 1 [(0 : ℕ), 1]).length = 2 ∧
    (populateWith 1 [(0 : ℕ), 1]).map Prod.fst = [[0], [0, 0]] ∧
    ¬ ((populateWith 1 [(0 : ℕ), 1]).map Prod.fst).Pairwise NoPre := by
  decide

/-- Claim C2 (amended: the alphabet must have at least two keys; with one
key and two or more candidates no prefix-free labelling exists): for every
alphabet size K at least 2 and every ordered candidate list, the builder
assigns exactly one label per candidate in order (none dropped or
duplicated), every label is non-empty and uses only key indices below K,
and the label set is prefix-free with no duplicates. -/
theorem C2_label_assignment {α : Type} (K : ℕ) (hK : 2 ≤ K) (cands : List α) :
    (populateWith K cands).length = cands.length ∧
    (populateWith K cands).map Prod.snd = cands ∧
    (∀ e ∈ populateWith K cands, e.1 ≠ [] ∧ ∀ c ∈ e.1, c < K) ∧
    ((populateWith K cands).map Prod.fst).Pairwise NoPre := by
  have hlen : (buildLabels K cands.length).length = cands.length :=
    buildLabels_length hK _
  refine ⟨?_, ?_, ?_, ?_⟩
  · rw [populateWith, List.length_zip, hlen, min_self]
  · rw [populateWith]
    exact List.map_snd_zip _ _ (le_of_eq hlen.symm)
  · rintro ⟨l, c⟩ he
    exact buildLabels_sound hK _ l (List.of_mem_zip he).1
  · rw [populateWith, List.map_fst_zip _ _ (le_of_eq hlen)]
    exact buildLabels_pairwise hK _

/-- Witness for C2_label_assignment at a concrete alphabet size and
candidate list. -/
theorem C2_label_assignment_witness :
    2 ≤ 4 ∧
    ((populateWith 4 [(10 : ℕ), 20, 30, 40, 50]).length = 5 ∧
     (populateWith 4 [(10 : ℕ), 20, 30, 40, 50]).map Prod.snd = [10, 20, 30, 40, 50] ∧
     (∀ e ∈ populateWith 4 [(10 : ℕ), 20, 30, 40, 50], e.1 ≠ [] ∧ ∀ c ∈ e.1, c < 4) ∧
     ((populateWith 4 [(10 : ℕ), 20, 30, 40, 50]).map Prod.fst).Pairwise NoPre) :=
  ⟨by decide, C2_label_assignment 4 (by decide) [10, 20, 30, 40, 50]⟩

/-- Claim C6: with the alphabet asdf (K = 4) and five candidates in priority
order the builder assigns the labels a, s, d, fa, fs; from the fresh active
state, consuming the key f narrows the selection to exactly the candidates
three and four (Changed), and consuming a then resolves candidate three
(Found).  Key indices: a is 0, s is 1, d is 2, f is 3. -/
theorem C6_concrete_scenario :
    (buildLabels 4 5).map (labelChars ['a', 's', 'd', 'f']) =
      [['a'], ['s'], ['d'], ['f', 'a'], ['f', 's']] ∧
    recordInput (populateWith 4
        [OverlayState.mk 0 0, OverlayState.mk 10 0, OverlayState.mk 20 0,
         OverlayState.mk 30 0, OverlayState.mk 40 0]) (some 3) =
      ([([0], OverlayState.mk 30 0), ([1], OverlayState.mk 40 0)],
       TrimResult.Changed) ∧
    recordInput [([0], OverlayState.mk 30 0), ([1], OverlayState.mk 40 0)]
        (some 0) =
      ([([0], OverlayState.mk 30 0), ([1], OverlayState.mk 40 0)],
       TrimResult.Found (OverlayState.mk 30 0)) := by
  decide

end EasyMotion

namespace EasyMotion

/-- Claim C3: whenever consuming a key resolves a candidate (Found), the
cursor moves to the candidate's position and every involved view is torn
down (overlays, highlights and the keymap layer gone) with the session state
back to Idle; in the multipane handler, focus additionally switches to the
view owning the candidate (which the hypothesis requires to be among the
involved views, as with a live cross-view session). -/
theorem C3_found_resolution (sel sel' : Sel) (key : Option ℕ)
    (o : OverlayState) (ed : EditorView) (eds : List EditorView) (focus : ℕ)
    (hrec : recordInput sel key = (sel', TrimResult.Found o))
    (howner : (eds.find? (fun e => decide (e.id = o.editorId))).isSome = true) :
    handleTrim sel key ed = (.None, { clearView ed with cursor := o.point }) ∧
    (handleTrimMultipane sel key eds focus).1 = .None ∧
    (handleTrimMultipane sel key eds focus).2.2 = o.editorId ∧
    (handleTrimMultipane sel key eds focus).2.1 =
      eds.map (fun e =>
        if e.id = o.editorId then { clearView e with cursor := o.point }
        else clearView e) ∧
    ∀ e ∈ (handleTrimMultipane sel key eds focus).2.1,
      e.overlays = [] ∧ e.highlighted = false ∧ e.keymap = false := by
  have hmp : handleTrimMultipane sel key eds focus =
      (.None,
       eds.map (fun e =>
         if e.id = o.editorId then { clearView e with cursor := o.point }
         else clearView e),
       o.editorId) := by
    rw [handleTrimMultipane, hrec]
    simp [howner]
  refine ⟨?_, by rw [hmp], by rw [hmp], by rw [hmp], ?_⟩
  · rw [handleTrim, hrec]
  · rw [hmp]
    rintro e he
    obtain ⟨e0, _, rfl⟩ := List.mem_map.mp he
    by_cases hid : e0.id = o.editorId <;> simp [hid, clearView]

/-- Witness for C3_found_resolution: one remaining label, the matching key,
and a two-view workspace owning the candidate in view 2. -/
theorem C3_found_resolution_witness :
    (recordInput [([0], OverlayState.mk 7 2)] (some 0) =
      ([([0], OverlayState.mk 7 2)], TrimResult.Found (OverlayState.mk 7 2)) ∧
     ([EditorView.mk 1 [] false true 4,
       EditorView.mk 2 [([0], OverlayState.mk 7 2)] true true 5].find?
        (fun e => decide (e.id = (OverlayState.mk 7 2).editorId))).isSome = true) ∧
    handleTrim [([0], OverlayState.mk 7 2)] (some 0)
        (EditorView.mk 1 [] false true 4) =
      (.None, { clearView (EditorView.mk 1 [] false true 4) with
                  cursor := (OverlayState.mk 7 2).point }) := by
  refine ⟨by decide, ?_⟩
  exact (C3_found_resolution [([0], OverlayState.mk 7 2)]
    [([0], OverlayState.mk 7 2)] (some 0) (OverlayState.mk 7 2)
    (EditorView.mk 1 [] false true 4)
    [EditorView.mk 1 [] false true 4,
     EditorView.mk 2 [([0], OverlayState.mk 7 2)] true true 5] 1
    (by decide) (by decide)).1

/-- Claim C4: on an invalid continuation key (Err) the whole operation is
cancelled for all involved views at once: overlays, highlights and the
keymap layer are removed everywhere, both handlers return to Idle, and no
cursor is moved anywhere. -/
theorem C4_err_cancels (sel sel' : Sel) (key : Option ℕ) (ed : EditorView)
    (eds : List EditorView) (focus : ℕ)
    (hrec : recordInput sel key = (sel', TrimResult.Err)) :
    handleTrim sel key ed = (.None, clearView ed) ∧
    handleTrimMultipane sel key eds focus = (.None, eds.map clearView, focus) ∧
    (clearView ed).cursor = ed.cursor ∧
    (eds.map clearView).map (fun e => e.cursor) = eds.map (fun e => e.cursor) := by
  refine ⟨?_, ?_, rfl, ?_⟩
  · rw [handleTrim, hrec]
  · rw [handleTrimMultipane, hrec]
  · rw [List.map_map]
    rfl

/-- Witness for C4_err_cancels: the typed key 5 continues no remaining
label. -/
theorem C4_err_cancels_witness :
    recordInput [([1], OverlayState.mk 7 2)] (some 5) =
      ([([1], OverlayState.mk 7 2)], TrimResult.Err) ∧
    handleTrim [([1], OverlayState.mk 7 2)] (some 5)
        (EditorView.mk 1 [([1], OverlayState.mk 7 2)] true true 4) =
      (.None, clearView (EditorView.mk 1 [([1], OverlayState.mk 7 2)] true true 4)) :=
  ⟨by decide,
   (C4_err_cancels [([1], OverlayState.mk 7 2)] [([1], OverlayState.mk 7 2)]
     (some 5) (EditorView.mk 1 [([1], OverlayState.mk 7 2)] true true 4)
     [] 0 (by decide)).1⟩

/-- Claim C7: a NoChange outcome leaves everything exactly as before: the
returned state holds the same selection (same trie, same typed prefix), and
no view is touched, in the single-view handler, the multipane handler and
the vim handler alike. -/
theorem C7_noChange_frame (sel sel' : Sel) (key : Option ℕ) (ed : EditorView)
    (eds : List EditorView) (focus : ℕ) (ved : VimEasyMotion.VimEditor)
    (hrec : recordInput sel key = (sel', TrimResult.NoChange)) :
    sel' = sel ∧
    handleTrim sel key ed = (.Selection sel, ed) ∧
    handleTrimMultipane sel key eds focus = (.Selection sel, eds, focus) ∧
    VimEasyMotion.vimHandleTrim sel key ved = (some sel, ved) := by
  obtain ⟨hkey, hsel⟩ := recordInput_noChange hrec
  subst hsel
  refine ⟨rfl, ?_, ?_, ?_⟩
  · rw [handleTrim, hrec]
  · rw [handleTrimMultipane, hrec]
  · rw [VimEasyMotion.vimHandleTrim, hrec]

/-- Witness for C7_noChange_frame: a non-contributing keystroke against a
live selection. -/
theorem C7_noChange_frame_witness :
    recordInput [([0], OverlayState.mk 7 2)] none =
      ([([0], OverlayState.mk 7 2)], TrimResult.NoChange) ∧
    handleTrim [([0], OverlayState.mk 7 2)] none
        (EditorView.mk 1 [([0], OverlayState.mk 7 2)] true true 4) =
      (.Selection [([0], OverlayState.mk 7 2)],
       EditorView.mk 1 [([0], OverlayState.mk 7 2)] true true 4) :=
  ⟨by decide,
   (C7_noChange_frame [([0], OverlayState.mk 7 2)] [([0], OverlayState.mk 7 2)]
     none (EditorView.mk 1 [([0], OverlayState.mk 7 2)] true true 4) [] 0
     (VimEasyMotion.VimEditor.mk [] false false 0 []) (by decide)).2.1⟩

end EasyMotion

namespace EasyMotion

/-- Claim C1 is violated by the code (code bug): the async completions of
show_trie_from_query and process_match_tasks apply their result without
re-validating the session state.  Here the single-view slot holds Idle
(None, as after Cancel during the outstanding search) and yet the late
completion with one match installs an active Selection, emits an overlay and
installs the keymap layer; likewise the cross-view slot holds Idle and the
late multipane completion overwrites it with a Selection and emits overlays. -/
theorem C1_stale_completion_applied :
    showTrieCompletion 4 true [5] 1
        (GlobalState.mk [(1, EditorState.None)] none)
        (EditorView.mk 1 [] false false 0) =
      (GlobalState.mk [(1, EditorState.Selection [([0], OverlayState.mk 5 1)])] none,
       EditorView.mk 1 [([0], OverlayState.mk 5 1)] true true 0) ∧
    processMatchCompletion 4 true [(5, 2, 9)] 0
        (GlobalState.mk [] (some EditorState.None))
        [EditorView.mk 2 [] false false 0] =
      (GlobalState.mk []
         (some (EditorState.Selection [([0], OverlayState.mk 5 2)])),
       [EditorView.mk 2 [([0], OverlayState.mk 5 2)] true true 0]) := by
  decide

/-- Claim C5 partially fails on the code (code bug in the multipane path):
with zero matches the single-view handler correctly stays Idle without
emitting overlays, and the multipane completion resets the views, but the
cross-view slot is never written back, so it remains PendingSearch instead
of returning to Idle. -/
theorem C5_zero_candidates :
    handleNewMatches 4 true [] (EditorView.mk 1 [] false false 0) =
      (EditorState.None, EditorView.mk 1 [] false false 0) ∧
    processMatchCompletion 4 true [] 0
        (GlobalState.mk [] (some EditorState.PendingSearch))
        [EditorView.mk 1 [] false true 0, EditorView.mk 2 [] true true 3] =
      (GlobalState.mk [] (some EditorState.PendingSearch),
       [EditorView.mk 1 [] false false 0, EditorView.mk 2 [] false false 3]) := by
  decide

/-- Claim C8: with the cross-view slot occupied, an unguarded keystroke is
interpreted against the cross-view state only: the per-view session map is
left untouched, and (for a live cross-view state) the slot is advanced by
the multipane step alone. -/
theorem C8_multipane_precedence (ev : KeyEvent) (activeId : ℕ) (w : World)
    (st : EditorState) (hA : ev.hasAction = false)
    (hma : w.global.multipane = some st) :
    (observeKeystrokes ev false activeId w).global.editorStates =
      w.global.editorStates ∧
    (easyMotionControlled st = true →
      (observeKeystrokes ev false activeId w).global.multipane =
        some (stepMultipane st ev.key w.views w.focus).1) := by
  rcases hstep : stepMultipane st ev.key w.views w.focus with ⟨st', eds', focus'⟩
  by_cases hc : easyMotionControlled st = true
  · constructor
    · simp [observeKeystrokes, hA, hma, hc, hstep]
    · intro _
      simp [observeKeystrokes, hA, hma, hc, hstep]
  · constructor
    · simp [observeKeystrokes, hA, hma, hc]
    · intro hcon
      exact absurd hcon hc

/-- Witness for C8_multipane_precedence: an occupied cross-view slot holding
a pending search and a second view with its own per-view state. -/
theorem C8_multipane_precedence_witness :
    (KeyEvent.mk false (some 0)).hasAction = false ∧
    (GlobalState.mk [(1, EditorState.PendingSearch)]
        (some EditorState.PendingSearch)) = (World.mk
        (GlobalState.mk [(1, EditorState.PendingSearch)]
          (some EditorState.PendingSearch)) [] 1).global ∧
    (observeKeystrokes (KeyEvent.mk false (some 0)) false 1
        (World.mk (GlobalState.mk [(1, EditorState.PendingSearch)]
          (some EditorState.PendingSearch)) [] 1)).global.editorStates =
      [(1, EditorState.PendingSearch)] :=
  ⟨rfl, rfl,
   (C8_multipane_precedence (KeyEvent.mk false (some 0)) 1
     (World.mk (GlobalState.mk [(1, EditorState.PendingSearch)]
       (some EditorState.PendingSearch)) [] 1)
     EditorState.PendingSearch (by decide) (by decide)).1⟩

/-- Claim C9: a keystroke event that already resolved to an action, or that
arrives while the host has pending keystrokes, is ignored entirely: neither
the easy-motion dispatcher nor the vim dispatcher changes any session state
or any view. -/
theorem C9_guard_frame (ev : KeyEvent) (hasPending : Bool)
    (activeId edId : ℕ) (w : World) (vstates : List (ℕ × Sel))
    (ved : VimEasyMotion.VimEditor)
    (h : ev.hasAction = true ∨ hasPending = true) :
    observeKeystrokes ev hasPending activeId w = w ∧
    VimEasyMotion.vimObserveKeystrokes ev hasPending edId vstates ved =
      (vstates, ved) := by
  rcases h with h | h
  · constructor
    · simp [observeKeystrokes, h]
    · simp [VimEasyMotion.vimObserveKeystrokes, h]
  · cases hA : ev.hasAction
    · constructor
      · simp [observeKeystrokes, h, hA]
      · simp [VimEasyMotion.vimObserveKeystrokes, h, hA]
    · constructor
      · simp [observeKeystrokes, hA]
      · simp [VimEasyMotion.vimObserveKeystrokes, hA]

/-- Witness for C9_guard_frame: an event that already resolved to an editor
action, with a live single-view selection that must stay untouched. -/
theorem C9_guard_frame_witness :
    ((KeyEvent.mk true (some 0)).hasAction = true ∨ false = true) ∧
    observeKeystrokes (KeyEvent.mk true (some 0)) false 1
        (World.mk (GlobalState.mk
          [(1, EditorState.Selection [([0], OverlayState.mk 5 1)])] none)
          [EditorView.mk 1 [([0], OverlayState.mk 5 1)] true true 0] 1) =
      World.mk (GlobalState.mk
        [(1, EditorState.Selection [([0], OverlayState.mk 5 1)])] none)
        [EditorView.mk 1 [([0], OverlayState.mk 5 1)] true true 0] 1 :=
  ⟨Or.inl rfl,
   (C9_guard_frame (KeyEvent.mk true (some 0)) false 1 1
     (World.mk (GlobalState.mk
       [(1, EditorState.Selection [([0], OverlayState.mk 5 1)])] none)
       [EditorView.mk 1 [([0], OverlayState.mk 5 1)] true true 0] 1)
     [] (VimEasyMotion.VimEditor.mk [] false false 0 [])
     (Or.inl rfl)).1⟩

/-- Looking up the key just inserted returns the inserted value. -/
lemma alistLookup_insert (k : ℕ) (v : β) (m : List (ℕ × β)) :
    alistLookup k (alistInsert k v m) = some v := by
  simp [alistInsert, alistLookup]

end EasyMotion

namespace VimEasyMotion

open EasyMotion

/-- Claim C10: on a fold or unfold event with a live session, the overlays
are rebuilt from the stored trie without changing the trie or the session
state; every entry whose position is folded is omitted from the emitted
overlays and every entry whose position is visible is emitted. -/
theorem C10_fold_rebuild (event : VimEvent) (edId : ℕ)
    (states : List (ℕ × Sel)) (ed : VimEditor) (st : Sel)
    (hev : event = VimEvent.Fold ∨ event = VimEvent.UnFold)
    (hst : alistLookup edId states = some st) :
    alistLookup edId (vimUpdateOverlays event edId states ed).1 = some st ∧
    (vimUpdateOverlays event edId states ed).2 =
      { ed with overlays := vimAddOverlays st ed.folded } ∧
    (∀ l p, (l, p) ∈ (vimUpdateOverlays event edId states ed).2.overlays →
      p ∉ ed.folded) ∧
    (∀ e ∈ st, e.2.point ∉ ed.folded →
      (e.1, e.2.point) ∈ (vimUpdateOverlays event edId states ed).2.overlays) := by
  have hred : vimUpdateOverlays event edId states ed =
      (alistInsert edId st (alistRemove edId states),
       { ed with overlays := vimAddOverlays st ed.folded }) := by
    rw [vimUpdateOverlays]
    rw [if_pos hev, hst]
  refine ⟨?_, by rw [hred], ?_, ?_⟩
  · rw [hred]
    exact alistLookup_insert edId st (alistRemove edId states)
  · rw [hred]
    intro l p hmem
    simp only [vimAddOverlays, List.mem_filterMap] at hmem
    obtain ⟨e, _, hfe⟩ := hmem
    by_cases hf : e.2.point ∈ ed.folded
    · rw [if_pos hf] at hfe
      exact absurd hfe (by simp)
    · rw [if_neg hf] at hfe
      have : p = e.2.point := by
        injection hfe with h
        exact (congrArg Prod.snd h).symm
      rw [this]
      exact hf
  · rw [hred]
    intro e he hnf
    simp only [vimAddOverlays, List.mem_filterMap]
    exact ⟨e, he, by rw [if_neg hnf]⟩

/-- Witness for C10_fold_rebuild: one live session with two labels, one of
them folded away. -/
theorem C10_fold_rebuild_witness :
    ((VimEvent.Fold = VimEvent.Fold ∨ VimEvent.Fold = VimEvent.UnFold) ∧
     alistLookup 1 [(1, ([([0], OverlayState.mk 5 0),
        ([1], OverlayState.mk 9 0)] : Sel))] =
       some [([0], OverlayState.mk 5 0), ([1], OverlayState.mk 9 0)]) ∧
    alistLookup 1 (vimUpdateOverlays VimEvent.Fold 1
        [(1, ([([0], OverlayState.mk 5 0), ([1], OverlayState.mk 9 0)] : Sel))]
        (VimEditor.mk [] false true 0 [9])).1 =
      some [([0], OverlayState.mk 5 0), ([1], OverlayState.mk 9 0)] :=
  ⟨⟨Or.inl rfl, by decide⟩,
   (C10_fold_rebuild VimEvent.Fold 1
     [(1, ([([0], OverlayState.mk 5 0), ([1], OverlayState.mk 9 0)] : Sel))]
     (VimEditor.mk [] false true 0 [9])
     [([0], OverlayState.mk 5 0), ([1], OverlayState.mk 9 0)]
     (Or.inl rfl) (by decide)).1⟩

end VimEasyMotion
